import Mathlib

/-!
# arch-linux-update: a shallow embedding of `index.js`

The script reads a grouped package list, asks `pacman` for the installed
version of each entry, asks one of two remote registries for the published
version, and prints the packages whose two versions differ, sorted by
group, source flag and name.

Conventions of the embedding

* A JavaScript value that is `null` or a string is an `Option String`.
  A property that may be missing from an object (`aur`) is an `Option`,
  with `none` for `undefined`.
* A JavaScript array is a `List` in the same order; `push` appends at the
  end and `pop` removes the last element.
* Calls that leave the program (`execSync`, `axios.get`) are parameters:
  a function from the argument to the outcome of the call.
* Strings are compared as JavaScript compares them: lexicographically on
  their UTF-16 code units.
* An `async` function that can reject returns an `Except`.
* The two regular expressions of `getVersion` are written out as functions
  on lists of characters.
-/

namespace ArchUpdate

/-! ## Values -/

/-- Truthiness of a value that is `null` or a string: `null` and the empty
string are falsy, every other string is truthy. -/
def truthy : Option String → Bool
  | none => false
  | some s => s != ""

/-- An entry of a group in `package-list.yml`: a bare package name, or an
object with a `name` and possibly an `aur` flag. -/
inductive Entry where
  | bare (name : String)
  | obj (name : String) (aur : Option Bool)
  deriving DecidableEq, Repr

/-- The object built for an entry by the normalizing `map` callback
(`index.js`, lines 71-78). -/
structure Descriptor where
  name : String
  aur : Option Bool
  group : String
  version : Option String
  deriving DecidableEq, Repr

/-- The object built by the callback of `bluebird.map` in `main`: the
descriptor spread, plus `remoteVersion`. -/
structure Reconciled extends Descriptor where
  remoteVersion : Option String
  deriving DecidableEq, Repr

/-- The name an entry is looked up under. -/
def Entry.name : Entry → String
  | .bare n => n
  | .obj n _ => n

/-! ## `flatten` (lines 48-63) -/

/-- A value handed to `flatten`: an array of such values, or anything that
`Array.isArray` rejects. -/
inductive Nested (α : Type) where
  | leaf (value : α)
  | arr (items : List (Nested α))

/-- Number of array and leaf nodes of a nested value. -/
def Nested.nodes {α : Type} : Nested α → Nat
  | .leaf _ => 1
  | .arr items => 1 + nodesList items
where
  /-- Number of nodes held by a list of nested values. -/
  nodesList : List (Nested α) → Nat
    | [] => 0
    | x :: xs => x.nodes + nodesList xs

/-- The `while (stack.length)` loop of `flatten`: `stack.pop()` takes the
last element; an array is pushed back item by item, anything else is pushed
on `res`. -/
def flattenLoop {α : Type} (stack : List (Nested α)) (res : List α) : List α :=
  match h : stack.getLast? with
  | none => res
  | some (.arr items) => flattenLoop (stack.dropLast ++ items) res
  | some (.leaf value) => flattenLoop stack.dropLast (res ++ [value])
termination_by Nested.nodes.nodesList stack
decreasing_by
  all_goals
    have happ : ∀ xs ys : List (Nested α), Nested.nodes.nodesList (xs ++ ys)
        = Nested.nodes.nodesList xs + Nested.nodes.nodesList ys := by
      intro xs ys
      induction xs with
      | nil => simp [Nested.nodes.nodesList]
      | cons x xs ih => simp [Nested.nodes.nodesList, ih, Nat.add_assoc]
    have hs := (List.dropLast_append_getLast? _ (by simpa using h)).symm
    conv_rhs => rw [hs]
    simp only [happ, Nested.nodes.nodesList, Nested.nodes]
    omega

/-- The function `flatten(input)`: the stack starts as a copy of the input, and the
collected values are reversed at the end. -/
def flatten {α : Type} (input : List (Nested α)) : List α :=
  (flattenLoop input []).reverse

/-- The recursive flattening: the leaves of a nested value from left to
right, the flattenings of the items of an array one after the other. -/
def Nested.leaves {α : Type} : Nested α → List α
  | .leaf value => [value]
  | .arr items => leavesList items
where
  /-- The leaves of a list of nested values, from left to right. -/
  leavesList : List (Nested α) → List α
    | [] => []
    | x :: xs => x.leaves ++ leavesList xs

/-! ## `getVersion` and `parsedPackageList` (lines 9-21, 67-82) -/

/-- The normalizing `map` callback (lines 71-78): a string becomes
`{ name, aur: false }`, an object is copied as it is; `group` and the
result of `getVersion(entry.name)` are added. -/
def normalize (getVersion : String → Option String) (group : String) : Entry → Descriptor
  | .bare name => { name := name, aur := some false, group := group, version := getVersion name }
  | .obj name aur => { name := name, aur := aur, group := group, version := getVersion name }

/-- The constant `parsedPackageList` (lines 67-82). `packageList` is the list of pairs
that `Object.entries` enumerates on the loaded configuration; `getVersion`
gives, for each name, what `getVersion(name)` returns on this machine. -/
def parsedPackageList (getVersion : String → Option String)
    (packageList : List (String × List Entry)) : List Descriptor :=
  flatten (packageList.map fun (group, packages) =>
    Nested.arr (((packages.map (normalize getVersion group)).filter
      fun d => truthy d.version).map Nested.leaf))

/-! ## The remote resolvers (lines 23-46) -/

/-- What `response.data` can be: a falsy value (`null`, an empty body), a
truthy value without a `results` property, or a value whose `results` is a
list. -/
inductive ResponseData (ρ : Type) where
  | falsy
  | noResults
  | results (rs : List ρ)
  deriving Repr

/-- How `await axios.get(url)` ends: it rejects (no answer from the network,
or a status outside 2xx), or it resolves with a response. -/
inductive AxiosOutcome (ρ : Type) where
  | networkError
  | badStatus (code : Nat)
  | response (data : ResponseData ρ)
  deriving Repr

/-- An entry of `results` in the answer of the package search of
archlinux.org. -/
structure PkgResult where
  pkgver : String
  pkgrel : String
  deriving DecidableEq, Repr

/-- An entry of `results` in the answer of the AUR RPC. -/
structure AurResult where
  Version : String
  deriving DecidableEq, Repr

/-- An error raised by the JavaScript engine. -/
inductive JSError where
  | typeError
  deriving DecidableEq, Repr

/-- The expression `response.data && response.data.results[0]` (lines 32
and 44): falsy data is the value itself, a `results` list gives its first
element or `undefined`, and reading index 0 of a missing `results` raises a
`TypeError`. -/
def firstResult {ρ : Type} : ResponseData ρ → Except JSError (Option ρ)
  | .falsy => .ok none
  | .noResults => .error .typeError
  | .results rs => .ok rs.head?

/-- The address built on line 25. -/
def pkgUrl (name : String) : String :=
  "https://www.archlinux.org/packages/search/json/?name=" ++ name

/-- The address built on line 37. -/
def aurUrl (name : String) : String :=
  "https://aur.archlinux.org/rpc/?v=5&type=search&arg=" ++ name

/-- The resolver `getRemoteVersion` (lines 23-34); `get` is `axios.get`. -/
def getRemoteVersion (get : String → AxiosOutcome PkgResult) (name : String) :
    Except JSError (Option String) :=
  let url := pkgUrl name
  match get url with
  | .networkError => .ok none
  | .badStatus _ => .ok none
  | .response data =>
    match firstResult data with
    | .error e => .error e
    | .ok none => .ok none
    | .ok (some info) => .ok (some (info.pkgver ++ "-" ++ info.pkgrel))

/-- The resolver `getRemoteAurVersion` (lines 36-46); `get` is `axios.get`. -/
def getRemoteAurVersion (get : String → AxiosOutcome AurResult) (name : String) :
    Except JSError (Option String) :=
  let url := aurUrl name
  match get url with
  | .networkError => .ok none
  | .badStatus _ => .ok none
  | .response data =>
    match firstResult data with
    | .error e => .error e
    | .ok none => .ok none
    | .ok (some info) => .ok (some info.Version)

/-! ## `sort_by` (lines 84-144) -/

/-- The operators `==` and `<` of JavaScript on the values of one kind of
property. -/
class JSCompare (α : Type) where
  /-- The result of `a == b`. -/
  looseEq : α → α → Bool
  /-- The result of `a < b`. -/
  lessThan : α → α → Bool

/-- The UTF-16 code units of a character: one unit below `0x10000`, a
surrogate pair from there on. -/
def codeUnits (c : Char) : List Nat :=
  if c.toNat < 65536 then [c.toNat]
  else [55296 + (c.toNat - 65536) / 1024, 56320 + (c.toNat - 65536) % 1024]

/-- The UTF-16 code units of a list of characters. -/
def utf16Units : List Char → List Nat
  | [] => []
  | c :: cs => codeUnits c ++ utf16Units cs

/-- The UTF-16 code units of a string, which is what a JavaScript string
is made of. -/
def utf16 (s : String) : List Nat :=
  utf16Units s.data

/-- The lexicographic order on sequences of code units: a proper initial
segment comes first, otherwise the first unit that differs decides. -/
def unitsLt : List Nat → List Nat → Bool
  | _, [] => false
  | [], _ :: _ => true
  | a :: as, b :: bs => decide (a < b) || (decide (a = b) && unitsLt as bs)

/-- The result of `a < b` on two strings. -/
def strLt (a b : String) : Bool :=
  unitsLt (utf16 a) (utf16 b)

/-- Strings: equality, and the lexicographic order on code units. -/
instance : JSCompare String where
  looseEq a b := decide (a = b)
  lessThan a b := strLt a b

/-- A property that is `undefined`, `false` or `true`: `undefined` equals
only itself; `<` converts both sides to numbers, `false` to 0, `true` to 1
and `undefined` to `NaN`, and every comparison with `NaN` is false. -/
instance : JSCompare (Option Bool) where
  looseEq
    | none, none => true
    | some a, some b => a == b
    | _, _ => false
  lessThan
    | some false, some true => true
    | _, _ => false

/-- The comparison `default_cmp` (lines 88-91). -/
def default_cmp {α : Type} [JSCompare α] (a b : α) : Int :=
  if JSCompare.looseEq a b then 0
  else if JSCompare.lessThan a b then -1 else 1

/-- A property name passed to `sort_by` as a string. -/
inductive Field where
  | group
  | aur
  | name
  deriving DecidableEq, Repr

/-- The call `field.cmp(A[name], B[name])` for a field given as a string,
whose `cmp` is `default_cmp` (lines 117-119, 138). -/
def Field.cmp : Field → Reconciled → Reconciled → Int
  | .group, A, B => default_cmp A.group B.group
  | .aur, A, B => default_cmp A.aur B.aur
  | .name, A, B => default_cmp A.name B.name

/-- The comparison function returned by `sort_by` (lines 131-142) when every
argument is a string: the first field whose comparison is not 0 decides.
(With no field at all the JavaScript function returns `undefined`; `main`
passes three.) -/
def sort_by : List Field → Reconciled → Reconciled → Int
  | [], _, _ => 0
  | field :: fields, A, B =>
    let result := field.cmp A B
    if result ≠ 0 then result else sort_by fields A B

/-! ## `Array.prototype.sort` -/

/-- One step of the sort: `acc` is the sorted prefix, last element first.
The pivot moves left past every element it compares below
(`cmp(pivot, e) < 0`) and stops at the first it does not. -/
def insertPivot {α : Type} (cmp : α → α → Int) (pivot : α) : List α → List α
  | [] => [pivot]
  | e :: rest =>
    if cmp pivot e < 0 then e :: insertPivot cmp pivot rest else pivot :: e :: rest

/-- The builtin `Array.prototype.sort(cmp)`, as the stable insertion sort:
the elements are taken from left to right and each is inserted in the
sorted prefix. For a comparison function that is consistent on the
elements, every stable sort returns the same list; on two elements the one
call made is `cmp(second, first)`, as in the sort of V8. -/
def jsSort {α : Type} (cmp : α → α → Int) (xs : List α) : List α :=
  (xs.foldl (fun acc pivot => insertPivot cmp pivot acc) []).reverse

/-! ## `main` (lines 146-162) -/

/-- The callback of `bluebird.map` (lines 149-156): the AUR resolver when
`packageInfo.aur` is truthy, the other one otherwise. -/
def lookupRemote (getRemoteVersion getRemoteAurVersion : String → Except JSError (Option String))
    (packageInfo : Descriptor) : Except JSError (Option String) :=
  if packageInfo.aur = some true then getRemoteAurVersion packageInfo.name
  else getRemoteVersion packageInfo.name

/-- The call of `bluebird.map` (lines 147-157): the results are in the order
of the input, and the whole call rejects when one callback rejects. -/
def reconcile (getRemoteVersion getRemoteAurVersion : String → Except JSError (Option String)) :
    List Descriptor → Except JSError (List Reconciled)
  | [] => .ok []
  | packageInfo :: rest =>
    match lookupRemote getRemoteVersion getRemoteAurVersion packageInfo with
    | .error e => .error e
    | .ok remoteVersion =>
      match reconcile getRemoteVersion getRemoteAurVersion rest with
      | .error e => .error e
      | .ok result => .ok ({ toDescriptor := packageInfo, remoteVersion := remoteVersion } :: result)

/-- The predicate of the `filter` in `main` (line 159). -/
def needsUpdate (packageInfo : Reconciled) : Bool :=
  truthy packageInfo.remoteVersion && decide (packageInfo.version ≠ packageInfo.remoteVersion)

/-- The value `pendingUpdates` (lines 158-160). -/
def pendingUpdates (result : List Reconciled) : List Reconciled :=
  jsSort (sort_by [.group, .aur, .name]) (result.filter needsUpdate)

/-- The function `main`, up to the table it prints; `getPkg` and `getAur`
are `axios.get` on the two registries. -/
def main (getPkg : String → AxiosOutcome PkgResult) (getAur : String → AxiosOutcome AurResult)
    (parsed : List Descriptor) : Except JSError (List Reconciled) :=
  match reconcile (getRemoteVersion getPkg) (getRemoteAurVersion getAur) parsed with
  | .error e => .error e
  | .ok result => .ok (pendingUpdates result)

/-- The source flag as the specification reads it: a flag that is left out
is `false`. -/
def Reconciled.flag (d : Reconciled) : Bool :=
  d.aur.getD false

/-- The order of the composite key of the specification: `group` ascending,
then the flag with `false` before `true`, then `name` ascending, each key
deciding only when the keys before it tie. -/
def specKeyLe (d d' : Reconciled) : Prop :=
  strLt d.group d'.group = true ∨ (d.group = d'.group ∧
    (d.flag < d'.flag ∨ (d.flag = d'.flag ∧
      (strLt d.name d'.name = true ∨ d.name = d'.name))))

instance (d d' : Reconciled) : Decidable (specKeyLe d d') := by
  unfold specKeyLe
  infer_instance

/-- A configuration whose group `base` holds the object `{ name: b }`, with
no `aur` property, and then the string `a`. -/
def mixedConfig : List (String × List Entry) :=
  [("base", [Entry.obj "b" none, Entry.bare "a"])]

/-- The reconciled descriptor of `{ name: b }` in `mixedConfig`. -/
def omittedFlag : Reconciled :=
  { name := "b", aur := none, group := "base", version := some "1.0-1",
    remoteVersion := some "1.1-1" }

/-- The reconciled descriptor of the string `a` in `mixedConfig`. -/
def explicitFlag : Reconciled :=
  { name := "a", aur := some false, group := "base", version := some "1.0-1",
    remoteVersion := some "1.1-1" }

/-- A reconciled descriptor whose remote version is the empty string. -/
def emptyRemote : Reconciled :=
  { name := "pkgB", aur := some true, group := "extra", version := some "2.0-1",
    remoteVersion := some "" }

/-- A descriptor as `parsedPackageList` builds it for an installed package
of the group `base`. -/
def sampleDescriptor (name : String) (aur : Bool) : Descriptor :=
  { name := name, aur := some aur, group := "base", version := some "1.0-1" }

/-- A registry that cannot be reached for `pkgD` and answers `1.1-1` for
every other name. -/
def samplePkgRegistry (url : String) : AxiosOutcome PkgResult :=
  if url = pkgUrl "pkgD" then .networkError
  else .response (.results [{ pkgver := "1.1", pkgrel := "1" }])

/-- An AUR that answers `2.0-1`, and a second result, for every name. -/
def sampleAur (_url : String) : AxiosOutcome AurResult :=
  .response (.results [{ Version := "2.0-1" }, { Version := "9.9-9" }])

/-! ## `getVersion` (lines 9-21) -/

/-- The class `\s` of a regular expression: white space and line
terminators. -/
def isSpace (c : Char) : Bool :=
  let n := c.toNat
  (9 ≤ n && n ≤ 13) || n == 32 || n == 160 || n == 5760 || (8192 ≤ n && n ≤ 8202)
    || n == 8232 || n == 8233 || n == 8239 || n == 8287 || n == 12288 || n == 65279

/-- The characters that `.` does not match: line feed, carriage return,
line separator and paragraph separator. -/
def isLineTerminator (c : Char) : Bool :=
  let n := c.toNat
  n == 10 || n == 13 || n == 8232 || n == 8233

/-- The class `\d` of a regular expression: the ten ASCII digits. -/
def isDigit (c : Char) : Bool :=
  48 ≤ c.toNat && c.toNat ≤ 57

/-- The literal part of the pattern on line 16. -/
def versionWord : List Char :=
  ['V', 'e', 'r', 's', 'i', 'o', 'n']

/-- Removes a word from the front of a text, when the text starts with it. -/
def dropWord : List Char → List Char → Option (List Char)
  | [], s => some s
  | _ :: _, [] => none
  | w :: ws, c :: cs => if w = c then dropWord ws cs else none

/-- An attempt to match `/Version\s*\:\s*(.*)/` at the start of a text; the
result is the captured group. Both `\s*` take all the white space there is
(what follows each is not white space, or matches anything), and `(.*)`
runs to the end of the line. -/
def matchVersionAt (s : List Char) : Option (List Char) :=
  match dropWord versionWord s with
  | none => none
  | some rest =>
    match rest.dropWhile isSpace with
    | ':' :: value => some ((value.dropWhile isSpace).takeWhile fun c => !isLineTerminator c)
    | _ => none

/-- The call `output.toString().match(/Version\s*\:\s*(.*)/)` followed by
`match && match[1]`: the pattern is tried at each position from the left,
and the first success gives the captured group; `none` is `null`. -/
def findVersion : List Char → Option (List Char)
  | [] => none
  | c :: cs =>
    match matchVersionAt (c :: cs) with
    | some value => some value
    | none => findVersion cs

/-- The call `firstGroup.replace(/^\d+\:/, '')` (line 20): a leading run of
one or more digits followed by a colon is removed, once. -/
def stripEpoch (v : List Char) : List Char :=
  match v.takeWhile isDigit, v.dropWhile isDigit with
  | _ :: _, ':' :: rest => rest
  | _, _ => v

/-- The function `getVersion` (lines 9-21). `exec` is `execSync` on a
command line: `none` when it throws, else what the command printed. -/
def getVersion (exec : String → Option String) (name : String) : Option String :=
  match exec ("pacman -Qi " ++ name) with
  | none => none
  | some output =>
    let firstGroup := (findVersion output.data).map String.mk
    if truthy firstGroup then firstGroup.map fun g => String.mk (stripEpoch g.data) else none

/-! ## What `pacman -Qi` prints, in the words of the specification -/

/-- Whether a word begins at one of the positions of `before`, in the text
`before ++ after`. -/
def startsWithin (word : List Char) : List Char → List Char → Bool
  | [], _ => false
  | c :: before, after =>
    (dropWord word (c :: before ++ after)).isSome || startsWithin word before after

/-- The text `output` has a Version line that carries the value `v`: the
word `Version`, which begins nowhere before, then white space, a colon,
white space, and `v`, which is not empty, starts with a character that is
not white space and runs to the end of its line. -/
def VersionLine (output v : List Char) : Prop :=
  ∃ before ws₁ ws₂ after,
    output = before ++ (versionWord ++ (ws₁ ++ ':' :: (ws₂ ++ (v ++ after))))
      ∧ startsWithin versionWord before
          (versionWord ++ (ws₁ ++ ':' :: (ws₂ ++ (v ++ after)))) = false
      ∧ (∀ c ∈ ws₁, isSpace c = true) ∧ (∀ c ∈ ws₂, isSpace c = true)
      ∧ v ≠ [] ∧ (∀ c ∈ v.head?, isSpace c = false)
      ∧ (∀ c ∈ v, isLineTerminator c = false)
      ∧ (∀ c ∈ after.head?, isLineTerminator c = true)

/-- The value `v` starts with an epoch, a run of one or more digits and a
colon, and `w` is what follows the epoch. -/
def HasEpoch (v w : List Char) : Prop :=
  ∃ digits, digits ≠ [] ∧ (∀ c ∈ digits, isDigit c = true) ∧ v = digits ++ ':' :: w

/-- A `pacman` that prints, for every package, a Version line with the
given value. -/
def samplePacman (value : String) (_command : String) : Option String :=
  some ("Name            : sample\nVersion         : " ++ value ++ "\nDescription     : x")

/-- A package registry whose first result has the given `pkgver` and
`pkgrel`. -/
def registryWith (pkgver pkgrel : String) (_url : String) : AxiosOutcome PkgResult :=
  .response (.results [{ pkgver := pkgver, pkgrel := pkgrel }])

/-- An AUR whose first result has the given `Version`. -/
def aurWith (version : String) (_url : String) : AxiosOutcome AurResult :=
  .response (.results [{ Version := version }])

/-! ## The loop of `flatten`, one iteration at a time -/

/-- One iteration of the `while` loop of `flatten` on the pair of `stack`
and `res`; with an empty stack the loop has ended and nothing changes. -/
def flattenStep {α : Type} (state : List (Nested α) × List α) : List (Nested α) × List α :=
  match state.1.getLast? with
  | none => state
  | some (.arr items) => (state.1.dropLast ++ items, state.2)
  | some (.leaf value) => (state.1.dropLast, state.2 ++ [value])

/-- Number of leaves of a nested value. -/
def Nested.leafCount {α : Type} : Nested α → Nat
  | .leaf _ => 1
  | .arr items => leafCountList items
where
  /-- Number of leaves held by a list of nested values. -/
  leafCountList : List (Nested α) → Nat
    | [] => 0
    | x :: xs => x.leafCount + leafCountList xs

/-! ## `main` with its remote calls recorded -/

/-- The two resolvers. -/
inductive Registry where
  | pkg
  | aur
  deriving DecidableEq, Repr

/-- The resolver call that the callback of `bluebird.map` makes for a
descriptor (lines 153-154). -/
def remoteCall (packageInfo : Descriptor) : Registry × String :=
  (if packageInfo.aur = some true then Registry.aur else Registry.pkg, packageInfo.name)

theorem leavesList_append {α : Type} (xs ys : List (Nested α)) :
    Nested.leaves.leavesList (xs ++ ys)
      = Nested.leaves.leavesList xs ++ Nested.leaves.leavesList ys := by
  induction xs with
  | nil => simp [Nested.leaves.leavesList]
  | cons x xs ih => simp [Nested.leaves.leavesList, ih]

/-- The loop adds to `res` the leaves of the stack, last leaf first. -/
theorem flattenLoop_eq {α : Type} (stack : List (Nested α)) (res : List α) :
    flattenLoop stack res = res ++ (Nested.leaves.leavesList stack).reverse := by
  induction stack, res using flattenLoop.induct with
  | case1 stack res h =>
    have : stack = [] := by simpa using h
    subst this
    rw [flattenLoop]
    simp [Nested.leaves.leavesList]
  | case2 stack res items h ih =>
    have hs := (List.dropLast_append_getLast? _ (by simpa using h)).symm
    rw [flattenLoop]
    split
    · next h' => rw [h] at h'; cases h'
    · next items' h' =>
      rw [h] at h'
      cases h'
      rw [ih]
      conv_rhs => rw [hs]
      simp [leavesList_append, Nested.leaves.leavesList, Nested.leaves]
    · next value' h' => rw [h] at h'; cases h'
  | case3 stack res value h ih =>
    have hs := (List.dropLast_append_getLast? _ (by simpa using h)).symm
    rw [flattenLoop]
    split
    · next h' => rw [h] at h'; cases h'
    · next items' h' => rw [h] at h'; cases h'
    · next value' h' =>
      rw [h] at h'
      cases h'
      rw [ih]
      conv_rhs => rw [hs]
      simp [leavesList_append, Nested.leaves.leavesList, Nested.leaves]

theorem flatten_eq_leaves {α : Type} (input : List (Nested α)) :
    flatten input = Nested.leaves.leavesList input := by
  simp [flatten, flattenLoop_eq]

theorem leavesList_map_leaf {α : Type} (xs : List α) :
    Nested.leaves.leavesList (xs.map Nested.leaf) = xs := by
  induction xs with
  | nil => simp [Nested.leaves.leavesList]
  | cons x xs ih => simp [Nested.leaves.leavesList, Nested.leaves, ih]

/-- The descriptors a group contributes. -/
theorem parsedPackageList_cons (gv : String → Option String) (group : String)
    (packages : List Entry) (rest : List (String × List Entry)) :
    parsedPackageList gv ((group, packages) :: rest)
      = ((packages.map (normalize gv group)).filter fun d => truthy d.version)
        ++ parsedPackageList gv rest := by
  simp [parsedPackageList, flatten_eq_leaves, Nested.leaves.leavesList, Nested.leaves,
    leavesList_map_leaf]

theorem parsedPackageList_nil (gv : String → Option String) :
    parsedPackageList gv [] = [] := by
  simp [parsedPackageList, flatten_eq_leaves, Nested.leaves.leavesList]

theorem parsedPackageList_append (gv : String → Option String)
    (c₁ c₂ : List (String × List Entry)) :
    parsedPackageList gv (c₁ ++ c₂) = parsedPackageList gv c₁ ++ parsedPackageList gv c₂ := by
  induction c₁ with
  | nil => simp [parsedPackageList_nil]
  | cons g c₁ ih =>
    obtain ⟨group, packages⟩ := g
    simp [parsedPackageList_cons, ih]

theorem mem_parsedPackageList (gv : String → Option String)
    (cfg : List (String × List Entry)) (d : Descriptor) :
    d ∈ parsedPackageList gv cfg ↔
      ∃ g es e, (g, es) ∈ cfg ∧ e ∈ es ∧ truthy (gv e.name) = true ∧ d = normalize gv g e := by
  induction cfg with
  | nil => simp [parsedPackageList_nil]
  | cons c cfg ih =>
    obtain ⟨group, packages⟩ := c
    rw [parsedPackageList_cons, List.mem_append, ih]
    constructor
    · rintro (h | ⟨g, es, e, hg, he, ht, hd⟩)
      · rw [List.mem_filter, List.mem_map] at h
        obtain ⟨⟨e, he, rfl⟩, ht⟩ := h
        refine ⟨group, packages, e, by simp, he, ?_, rfl⟩
        cases e <;> simpa [normalize, Entry.name] using ht
      · exact ⟨g, es, e, by simp [hg], he, ht, hd⟩
    · rintro ⟨g, es, e, hg, he, ht, hd⟩
      rw [List.mem_cons] at hg
      rcases hg with hg | hg
      · left
        cases hg
        rw [List.mem_filter, List.mem_map]
        refine ⟨⟨e, he, hd.symm⟩, ?_⟩
        subst hd
        cases e <;> simpa [normalize, Entry.name] using ht
      · exact Or.inr ⟨g, es, e, hg, he, ht, hd⟩

theorem truthy_iff (v : Option String) :
    truthy v = true ↔ ∃ s, v = some s ∧ s ≠ "" := by
  cases v <;> simp [truthy]

theorem normalize_name (gv : String → Option String) (g : String) (e : Entry) :
    (normalize gv g e).name = e.name ∧ (normalize gv g e).group = g
      ∧ (normalize gv g e).version = gv e.name := by
  cases e <;> simp [normalize, Entry.name]

theorem insertPivot_perm {α : Type} (cmp : α → α → Int) (pivot : α) (acc : List α) :
    (insertPivot cmp pivot acc).Perm (pivot :: acc) := by
  induction acc with
  | nil => exact List.Perm.refl _
  | cons e rest ih =>
    unfold insertPivot
    split
    · exact (ih.cons e).trans (List.Perm.swap pivot e rest)
    · exact List.Perm.refl _

theorem foldl_insertPivot_perm {α : Type} (cmp : α → α → Int) (xs acc : List α) :
    (xs.foldl (fun acc pivot => insertPivot cmp pivot acc) acc).Perm (xs ++ acc) := by
  induction xs generalizing acc with
  | nil => exact List.Perm.refl _
  | cons x xs ih =>
    simp only [List.foldl_cons, List.cons_append]
    exact (ih _).trans ((List.Perm.append_left xs (insertPivot_perm cmp x acc)).trans
      List.perm_middle)

/-- The sort returns a permutation of its input, whatever `cmp` is. -/
theorem jsSort_perm {α : Type} (cmp : α → α → Int) (xs : List α) :
    (jsSort cmp xs).Perm xs := by
  unfold jsSort
  refine (List.reverse_perm _).trans ?_
  simpa using foldl_insertPivot_perm cmp xs []

theorem default_cmp_self_string (a : String) : default_cmp a a = 0 := by
  simp [default_cmp, JSCompare.looseEq]

theorem default_cmp_self_flag (a : Option Bool) : default_cmp a a = 0 := by
  cases a <;> simp [default_cmp, JSCompare.looseEq]

theorem needsUpdate_iff (d : Reconciled) :
    needsUpdate d = true ↔
      d.remoteVersion.isSome = true ∧ d.remoteVersion ≠ some "" ∧ d.remoteVersion ≠ d.version := by
  unfold needsUpdate
  cases h : d.remoteVersion with
  | none => simp [truthy]
  | some r =>
    simp [truthy]
    intro _
    exact ⟨fun h e => h e.symm, fun h e => h e.symm⟩

/-! ## The order on strings -/

theorem char_valid_nat (c : Char) :
    c.toNat < 55296 ∨ (57343 < c.toNat ∧ c.toNat < 1114112) := by
  have := c.valid
  simpa [UInt32.isValidChar, Nat.isValidChar, Char.toNat] using this

theorem char_eq_of_toNat (c d : Char) (h : c.toNat = d.toNat) : c = d :=
  Char.ext (UInt32.ext h)

/-- Two lists of characters with the same code units are equal. -/
theorem utf16Units_injective :
    ∀ cs ds : List Char, utf16Units cs = utf16Units ds → cs = ds := by
  intro cs
  induction cs with
  | nil =>
    intro ds h
    cases ds with
    | nil => rfl
    | cons d ds =>
      exfalso
      simp only [utf16Units, codeUnits] at h
      split at h <;> simp at h
  | cons c cs ih =>
    intro ds h
    cases ds with
    | nil =>
      exfalso
      simp only [utf16Units, codeUnits] at h
      split at h <;> simp at h
    | cons d ds =>
      have hc := char_valid_nat c
      have hd := char_valid_nat d
      simp only [utf16Units, codeUnits] at h
      split at h <;> split at h <;> simp at h
      · rw [char_eq_of_toNat c d h.1, ih ds h.2]
      · omega
      · omega
      · have : c.toNat = d.toNat := by omega
        rw [char_eq_of_toNat c d this, ih ds h.2.2]

theorem unitsLt_irrefl : ∀ a : List Nat, unitsLt a a = false := by
  intro a
  induction a with
  | nil => rfl
  | cons x xs ih => simp [unitsLt, ih]

theorem unitsLt_trans : ∀ a b c : List Nat,
    unitsLt a b = true → unitsLt b c = true → unitsLt a c = true := by
  intro a
  induction a with
  | nil =>
    intro b c h1 h2
    cases b with
    | nil => simp [unitsLt] at h1
    | cons y ys =>
      cases c with
      | nil => simp [unitsLt] at h2
      | cons z zs => rfl
  | cons x xs ih =>
    intro b c h1 h2
    cases b with
    | nil => simp [unitsLt] at h1
    | cons y ys =>
      cases c with
      | nil => simp [unitsLt] at h2
      | cons z zs =>
        simp only [unitsLt, Bool.or_eq_true, Bool.and_eq_true, decide_eq_true_eq] at h1 h2 ⊢
        rcases h1 with h1 | ⟨h1, h1'⟩ <;> rcases h2 with h2 | ⟨h2, h2'⟩
        · left; omega
        · left; omega
        · left; omega
        · right; exact ⟨by omega, ih ys zs h1' h2'⟩

theorem unitsLt_total : ∀ a b : List Nat,
    unitsLt a b = true ∨ a = b ∨ unitsLt b a = true := by
  intro a
  induction a with
  | nil =>
    intro b
    cases b with
    | nil => simp
    | cons y ys => left; rfl
  | cons x xs ih =>
    intro b
    cases b with
    | nil => right; right; rfl
    | cons y ys =>
      simp only [unitsLt, Bool.or_eq_true, Bool.and_eq_true, decide_eq_true_eq,
        List.cons.injEq]
      rcases Nat.lt_trichotomy x y with h | h | h
      · left; left; exact h
      · rcases ih ys with h' | h' | h'
        · left; right; exact ⟨h, h'⟩
        · right; left; exact ⟨h, h'⟩
        · right; right; right; exact ⟨h.symm, h'⟩
      · right; right; left; exact h

theorem strLt_irrefl (a : String) : strLt a a = false :=
  unitsLt_irrefl _

theorem strLt_trans (a b c : String) (h1 : strLt a b = true) (h2 : strLt b c = true) :
    strLt a c = true :=
  unitsLt_trans _ _ _ h1 h2

theorem strLt_total (a b : String) : strLt a b = true ∨ a = b ∨ strLt b a = true := by
  rcases unitsLt_total (utf16 a) (utf16 b) with h | h | h
  · exact Or.inl h
  · exact Or.inr (Or.inl (String.ext (utf16Units_injective _ _ h)))
  · exact Or.inr (Or.inr h)

theorem strLt_asymm (a b : String) (h : strLt a b = true) : strLt b a = false := by
  cases hba : strLt b a with
  | false => rfl
  | true =>
    have := strLt_trans a b a h hba
    rw [strLt_irrefl] at this
    exact absurd this (by decide)

theorem strLt_ne (a b : String) (h : strLt a b = true) : a ≠ b := by
  rintro rfl
  rw [strLt_irrefl] at h
  exact absurd h (by decide)

/-! ## The comparison when every flag is given -/

theorem default_cmp_of_strLt (a b : String) (h : strLt a b = true) :
    default_cmp a b = -1 ∧ default_cmp b a = 1 := by
  have hne := strLt_ne a b h
  have hba := strLt_asymm a b h
  constructor
  · simp [default_cmp, JSCompare.looseEq, JSCompare.lessThan, hne, h]
  · simp [default_cmp, JSCompare.looseEq, JSCompare.lessThan, Ne.symm hne, hba]

/-- With both flags given, the comparison of `main` and the order of the
specification agree, and the comparison changes sign when its arguments are
exchanged. -/
theorem sort_by_cases (A B : Reconciled) (hA : A.aur ≠ none) (hB : B.aur ≠ none) :
    (sort_by [.group, .aur, .name] A B = -1 ∧ sort_by [.group, .aur, .name] B A = 1
        ∧ specKeyLe A B ∧ ¬ specKeyLe B A)
      ∨ (sort_by [.group, .aur, .name] A B = 0 ∧ sort_by [.group, .aur, .name] B A = 0
        ∧ specKeyLe A B ∧ specKeyLe B A)
      ∨ (sort_by [.group, .aur, .name] A B = 1 ∧ sort_by [.group, .aur, .name] B A = -1
        ∧ ¬ specKeyLe A B ∧ specKeyLe B A) := by
  obtain ⟨⟨nA, aA, gA, vA⟩, rA⟩ := A
  obtain ⟨⟨nB, aB, gB, vB⟩, rB⟩ := B
  cases aA with
  | none => exact absurd rfl hA
  | some x =>
  cases aB with
  | none => exact absurd rfl hB
  | some y =>
  simp only [sort_by, Field.cmp, specKeyLe, Reconciled.flag, Option.getD_some]
  rcases strLt_total gA gB with hg | hg | hg
  · obtain ⟨h1, h2⟩ := default_cmp_of_strLt gA gB hg
    left
    simp [h1, h2, hg, strLt_asymm gA gB hg, Ne.symm (strLt_ne gA gB hg)]
  · subst hg
    simp only [default_cmp_self_string, strLt_irrefl, true_and, false_or, ne_eq,
      not_true_eq_false, if_false, Bool.false_eq_true]
    cases x <;> cases y
    · rcases strLt_total nA nB with hn | hn | hn
      · obtain ⟨h1, h2⟩ := default_cmp_of_strLt nA nB hn
        left
        simp [default_cmp_self_flag, h1, h2, hn, strLt_asymm nA nB hn,
          Ne.symm (strLt_ne nA nB hn)]
      · subst hn
        right; left
        simp [default_cmp_self_flag, default_cmp_self_string]
      · obtain ⟨h1, h2⟩ := default_cmp_of_strLt nB nA hn
        right; right
        simp [default_cmp_self_flag, h1, h2, hn, strLt_asymm nB nA hn,
          Ne.symm (strLt_ne nB nA hn)]
    · left
      simp [default_cmp, JSCompare.looseEq, JSCompare.lessThan]
    · right; right
      simp [default_cmp, JSCompare.looseEq, JSCompare.lessThan]
    · rcases strLt_total nA nB with hn | hn | hn
      · obtain ⟨h1, h2⟩ := default_cmp_of_strLt nA nB hn
        left
        simp [default_cmp_self_flag, h1, h2, hn, strLt_asymm nA nB hn,
          Ne.symm (strLt_ne nA nB hn)]
      · subst hn
        right; left
        simp [default_cmp_self_flag, default_cmp_self_string]
      · obtain ⟨h1, h2⟩ := default_cmp_of_strLt nB nA hn
        right; right
        simp [default_cmp_self_flag, h1, h2, hn, strLt_asymm nB nA hn,
          Ne.symm (strLt_ne nB nA hn)]
  · obtain ⟨h1, h2⟩ := default_cmp_of_strLt gB gA hg
    right; right
    simp [h1, h2, hg, strLt_asymm gB gA hg, Ne.symm (strLt_ne gB gA hg)]

/-- The order of the specification is transitive. -/
theorem specKeyLe_trans (a b c : Reconciled) (h1 : specKeyLe a b) (h2 : specKeyLe b c) :
    specKeyLe a c := by
  unfold specKeyLe at *
  rcases h1 with h1 | ⟨g1, h1⟩
  · rcases h2 with h2 | ⟨g2, -⟩
    · exact Or.inl (strLt_trans _ _ _ h1 h2)
    · exact Or.inl (g2 ▸ h1)
  · rcases h2 with h2 | ⟨g2, h2⟩
    · exact Or.inl (g1 ▸ h2)
    · refine Or.inr ⟨g1.trans g2, ?_⟩
      rcases h1 with h1 | ⟨f1, h1⟩
      · rcases h2 with h2 | ⟨f2, -⟩
        · exact Or.inl (lt_trans h1 h2)
        · exact Or.inl (f2 ▸ h1)
      · rcases h2 with h2 | ⟨f2, h2⟩
        · exact Or.inl (f1 ▸ h2)
        · refine Or.inr ⟨f1.trans f2, ?_⟩
          rcases h1 with h1 | h1
          · rcases h2 with h2 | h2
            · exact Or.inl (strLt_trans _ _ _ h1 h2)
            · exact Or.inl (h2 ▸ h1)
          · rcases h2 with h2 | h2
            · exact Or.inl (h1 ▸ h2)
            · exact Or.inr (h1.trans h2)

theorem insertPivot_sorted {α : Type} (cmp : α → α → Int) (le : α → α → Prop)
    (P : α → Prop)
    (hlt : ∀ a b, P a → P b → cmp a b < 0 → le a b)
    (hge : ∀ a b, P a → P b → ¬ cmp a b < 0 → le b a)
    (htr : ∀ a b c, le a b → le b c → le a c)
    (pivot : α) (acc : List α) (hp : P pivot) (hacc : ∀ x ∈ acc, P x)
    (hs : acc.Pairwise fun x y => le y x) :
    (insertPivot cmp pivot acc).Pairwise fun x y => le y x := by
  induction acc with
  | nil => simp [insertPivot]
  | cons e rest ih =>
    have he := hacc e (List.mem_cons_self e rest)
    have hrest : ∀ x ∈ rest, P x := fun x hx => hacc x (List.mem_cons_of_mem e hx)
    rw [List.pairwise_cons] at hs
    unfold insertPivot
    by_cases hc : cmp pivot e < 0
    · simp only [hc, if_true]
      rw [List.pairwise_cons]
      refine ⟨?_, ih hrest hs.2⟩
      intro y hy
      rcases List.mem_cons.1 ((insertPivot_perm cmp pivot rest).mem_iff.1 hy) with rfl | hy
      · exact hlt _ _ hp he hc
      · exact hs.1 y hy
    · simp only [hc, if_false]
      rw [List.pairwise_cons, List.pairwise_cons]
      refine ⟨?_, hs⟩
      intro y hy
      rcases List.mem_cons.1 hy with rfl | hy
      · exact hge _ _ hp he hc
      · exact htr _ _ _ (hs.1 y hy) (hge _ _ hp he hc)

theorem foldl_insertPivot_sorted {α : Type} (cmp : α → α → Int) (le : α → α → Prop)
    (P : α → Prop)
    (hlt : ∀ a b, P a → P b → cmp a b < 0 → le a b)
    (hge : ∀ a b, P a → P b → ¬ cmp a b < 0 → le b a)
    (htr : ∀ a b c, le a b → le b c → le a c)
    (xs acc : List α) (hxs : ∀ x ∈ xs, P x) (hacc : ∀ x ∈ acc, P x)
    (hs : acc.Pairwise fun x y => le y x) :
    (xs.foldl (fun acc pivot => insertPivot cmp pivot acc) acc).Pairwise
      fun x y => le y x := by
  induction xs generalizing acc with
  | nil => exact hs
  | cons x xs ih =>
    simp only [List.foldl_cons]
    have hx := hxs x (List.mem_cons_self x xs)
    refine ih _ (fun y hy => hxs y (List.mem_cons_of_mem x hy)) ?_
      (insertPivot_sorted cmp le P hlt hge htr x acc hx hacc hs)
    intro y hy
    rcases List.mem_cons.1 ((insertPivot_perm cmp x acc).mem_iff.1 hy) with rfl | hy
    · exact hx
    · exact hacc y hy

/-- On elements that `cmp` orders consistently, the sort returns a sorted
list. -/
theorem jsSort_sorted {α : Type} (cmp : α → α → Int) (le : α → α → Prop)
    (P : α → Prop)
    (hlt : ∀ a b, P a → P b → cmp a b < 0 → le a b)
    (hge : ∀ a b, P a → P b → ¬ cmp a b < 0 → le b a)
    (htr : ∀ a b c, le a b → le b c → le a c)
    (xs : List α) (hxs : ∀ x ∈ xs, P x) :
    (jsSort cmp xs).Pairwise le := by
  unfold jsSort
  rw [List.pairwise_reverse]
  exact foldl_insertPivot_sorted cmp le P hlt hge htr xs [] hxs (by simp) List.Pairwise.nil

/-- When every reconciled descriptor has its flag, the report is in the
order of the composite key: every descriptor is at most every later one. -/
theorem pendingUpdates_sorted_of_flags (result : List Reconciled)
    (h : ∀ d ∈ result, d.aur ≠ none) :
    (pendingUpdates result).Pairwise specKeyLe := by
  unfold pendingUpdates
  refine jsSort_sorted _ specKeyLe (fun d => d.aur ≠ none) ?_ ?_ specKeyLe_trans _ ?_
  · intro a b ha hb hc
    rcases sort_by_cases a b ha hb with h | h | h
    · exact h.2.2.1
    · exact h.2.2.1
    · rw [h.1] at hc; exact absurd hc (by decide)
  · intro a b ha hb hc
    rcases sort_by_cases a b ha hb with h | h | h
    · rw [h.1] at hc; exact absurd (by decide) hc
    · exact h.2.2.2
    · exact h.2.2.2
  · intro d hd
    exact h d (List.mem_filter.1 hd).1

/-- When the flags are given, the comparison of `main` is antisymmetric and
transitive. -/
theorem sort_by_total_of_flags (A B C : Reconciled) (hA : A.aur ≠ none) (hB : B.aur ≠ none)
    (hC : C.aur ≠ none) :
    sort_by [.group, .aur, .name] B A = - sort_by [.group, .aur, .name] A B
      ∧ (sort_by [.group, .aur, .name] A B ≤ 0 → sort_by [.group, .aur, .name] B C ≤ 0 →
          sort_by [.group, .aur, .name] A C ≤ 0) := by
  constructor
  · rcases sort_by_cases A B hA hB with h | h | h <;> rw [h.1, h.2.1] <;> rfl
  · intro h1 h2
    have le_of : ∀ X Y : Reconciled, X.aur ≠ none → Y.aur ≠ none →
        (sort_by [.group, .aur, .name] X Y ≤ 0 ↔ specKeyLe X Y) := by
      intro X Y hX hY
      rcases sort_by_cases X Y hX hY with h | h | h
      · rw [h.1]; exact ⟨fun _ => h.2.2.1, fun _ => by decide⟩
      · rw [h.1]; exact ⟨fun _ => h.2.2.1, fun _ => by decide⟩
      · rw [h.1]; exact ⟨fun hc => absurd hc (by decide), fun hc => absurd hc h.2.2.1⟩
    rw [le_of A C hA hC]
    exact specKeyLe_trans A B C ((le_of A B hA hB).1 h1) ((le_of B C hB hC).1 h2)

/-! ## Facts about the reconciliation -/

/-- When no lookup raises, `bluebird.map` resolves with one object per
descriptor, in order. -/
theorem reconcile_of_ok (p a : String → Except JSError (Option String))
    (f : Descriptor → Option String) (l : List Descriptor)
    (h : ∀ d ∈ l, lookupRemote p a d = .ok (f d)) :
    reconcile p a l = .ok (l.map fun d => { toDescriptor := d, remoteVersion := f d }) := by
  induction l with
  | nil => rfl
  | cons d l ih =>
    have hd := h d (List.mem_cons_self d l)
    have hl := ih fun x hx => h x (List.mem_cons_of_mem d hx)
    simp only [reconcile, hd, hl, List.map_cons]

/-- Whatever the request ends in, other than a response whose truthy body
has no `results`, both resolvers return a version or `null`. -/
theorem resolvers_return_otherwise (getPkg : String → AxiosOutcome PkgResult)
    (getAur : String → AxiosOutcome AurResult) (name : String) :
    (getPkg (pkgUrl name) ≠ .response .noResults → ∃ v, getRemoteVersion getPkg name = .ok v)
      ∧ (getAur (aurUrl name) ≠ .response .noResults →
          ∃ v, getRemoteAurVersion getAur name = .ok v) := by
  constructor
  · intro h
    unfold getRemoteVersion
    cases hg : getPkg (pkgUrl name) with
    | networkError => simp [hg]
    | badStatus code => simp [hg]
    | response data =>
      cases data with
      | falsy => simp [hg, firstResult]
      | noResults => exact absurd hg h
      | results rs => cases rs <;> simp [hg, firstResult]
  · intro h
    unfold getRemoteAurVersion
    cases hg : getAur (aurUrl name) with
    | networkError => simp [hg]
    | badStatus code => simp [hg]
    | response data =>
      cases data with
      | falsy => simp [hg, firstResult]
      | noResults => exact absurd hg h
      | results rs => cases rs <;> simp [hg, firstResult]

/-! ## Facts about the loop of `flatten` -/

theorem nodes_pos {α : Type} (x : Nested α) : 0 < x.nodes := by
  cases x <;> simp [Nested.nodes]

theorem nodesList_append {α : Type} (xs ys : List (Nested α)) :
    Nested.nodes.nodesList (xs ++ ys)
      = Nested.nodes.nodesList xs + Nested.nodes.nodesList ys := by
  induction xs with
  | nil => simp [Nested.nodes.nodesList]
  | cons x xs ih => simp [Nested.nodes.nodesList, ih, Nat.add_assoc]

theorem leafCountList_append {α : Type} (xs ys : List (Nested α)) :
    Nested.leafCount.leafCountList (xs ++ ys)
      = Nested.leafCount.leafCountList xs + Nested.leafCount.leafCountList ys := by
  induction xs with
  | nil => simp [Nested.leafCount.leafCountList]
  | cons x xs ih => simp [Nested.leafCount.leafCountList, ih, Nat.add_assoc]

/-- An iteration on a stack that is not empty removes exactly one node. -/
theorem flattenStep_nodes {α : Type} (stack : List (Nested α)) (res : List α)
    (h : stack ≠ []) :
    Nested.nodes.nodesList (flattenStep (stack, res)).1 + 1 = Nested.nodes.nodesList stack := by
  obtain ⟨next, hnext⟩ : ∃ next, stack.getLast? = some next := by
    cases hl : stack.getLast? with
    | none => exact absurd (List.getLast?_eq_none_iff.1 hl) h
    | some next => exact ⟨next, rfl⟩
  have hs := (List.dropLast_append_getLast? _ (by simpa using hnext)).symm
  unfold flattenStep
  simp only [hnext]
  cases next with
  | leaf value =>
    simp only
    conv_rhs => rw [hs]
    simp [nodesList_append, Nested.nodes.nodesList, Nested.nodes]
  | arr items =>
    simp only
    conv_rhs => rw [hs]
    simp only [nodesList_append, Nested.nodes.nodesList, Nested.nodes]
    omega

/-- The loop of the embedding is the iteration of `flattenStep`. -/
theorem flattenLoop_step {α : Type} (stack : List (Nested α)) (res : List α) :
    flattenLoop stack res
      = if stack.isEmpty then res
        else flattenLoop (flattenStep (stack, res)).1 (flattenStep (stack, res)).2 := by
  rw [flattenLoop]
  split
  · next h =>
    have : stack = [] := by simpa using h
    simp [this]
  · next items h =>
    have hne : stack ≠ [] := by
      rintro rfl
      simp at h
    simp [hne, flattenStep, h]
  · next value h =>
    have hne : stack ≠ [] := by
      rintro rfl
      simp at h
    simp [hne, flattenStep, h]

theorem flattenStep_iterate {α : Type} :
    ∀ (n : Nat) (stack : List (Nested α)) (res : List α),
      Nested.nodes.nodesList stack = n →
      flattenStep^[n] (stack, res) = ([], flattenLoop stack res) := by
  intro n
  induction n with
  | zero =>
    intro stack res h
    have hs : stack = [] := by
      cases stack with
      | nil => rfl
      | cons x xs =>
        have := nodes_pos x
        simp only [Nested.nodes.nodesList] at h
        omega
    subst hs
    rw [flattenLoop_step]
    simp
  | succ n ih =>
    intro stack res h
    have hne : stack ≠ [] := by
      rintro rfl
      simp [Nested.nodes.nodesList] at h
    have hstep := flattenStep_nodes stack res hne
    have hemp : stack.isEmpty = false := by
      cases stack with
      | nil => exact absurd rfl hne
      | cons x xs => rfl
    have hrest := ih (flattenStep (stack, res)).1 (flattenStep (stack, res)).2 (by omega)
    rw [Function.iterate_succ_apply, flattenLoop_step stack res, hemp]
    simpa using hrest

theorem leavesList_length {α : Type} (xs : List (Nested α)) :
    (Nested.leaves.leavesList xs).length = Nested.leafCount.leafCountList xs := by
  have key : ∀ n (xs : List (Nested α)), Nested.nodes.nodesList xs = n →
      (Nested.leaves.leavesList xs).length = Nested.leafCount.leafCountList xs := by
    intro n
    induction n using Nat.strong_induction_on with
    | _ n ih =>
      intro xs hn
      cases xs with
      | nil => rfl
      | cons x xs =>
        simp only [Nested.nodes.nodesList] at hn
        have hx := nodes_pos x
        have htail := ih _ (by omega) xs rfl
        cases x with
        | leaf value =>
          simp [Nested.leaves.leavesList, Nested.leaves, Nested.leafCount.leafCountList,
            Nested.leafCount, htail, Nat.add_comm]
        | arr items =>
          simp only [Nested.nodes] at hn
          have hitems := ih _ (by omega) items rfl
          simp [Nested.leaves.leavesList, Nested.leaves, Nested.leafCount.leafCountList,
            Nested.leafCount, htail, hitems]
  exact key _ xs rfl

/-! ## Facts about `getVersion` -/

theorem dropWord_append (w s : List Char) : dropWord w (w ++ s) = some s := by
  induction w with
  | nil => cases s <;> rfl
  | cons c w ih => simp [dropWord, ih]

theorem dropWhile_all {α : Type} (p : α → Bool) (xs ys : List α) (h : ∀ x ∈ xs, p x = true) :
    (xs ++ ys).dropWhile p = ys.dropWhile p := by
  induction xs with
  | nil => rfl
  | cons x xs ih =>
    have hx := h x (List.mem_cons_self x xs)
    simp only [List.cons_append, List.dropWhile_cons, hx, if_true]
    exact ih fun y hy => h y (List.mem_cons_of_mem x hy)

theorem takeWhile_all {α : Type} (p : α → Bool) (xs ys : List α) (h : ∀ x ∈ xs, p x = true) :
    (xs ++ ys).takeWhile p = xs ++ ys.takeWhile p := by
  induction xs with
  | nil => rfl
  | cons x xs ih =>
    have hx := h x (List.mem_cons_self x xs)
    simp only [List.cons_append, List.takeWhile_cons, hx, if_true, List.cons.injEq, true_and]
    exact ih fun y hy => h y (List.mem_cons_of_mem x hy)

theorem dropWhile_head {α : Type} (p : α → Bool) (ys : List α)
    (h : ∀ x ∈ ys.head?, p x = false) : ys.dropWhile p = ys := by
  cases ys with
  | nil => rfl
  | cons y ys =>
    have hy := h y (by simp)
    simp [List.dropWhile_cons, hy]

theorem takeWhile_head {α : Type} (p : α → Bool) (ys : List α)
    (h : ∀ x ∈ ys.head?, p x = false) : ys.takeWhile p = [] := by
  cases ys with
  | nil => rfl
  | cons y ys =>
    have hy := h y (by simp)
    simp [List.takeWhile_cons, hy]

/-- The pattern matches at the word `Version` of a Version line and
captures its value. -/
theorem matchVersionAt_line (ws₁ ws₂ v after : List Char)
    (h₁ : ∀ c ∈ ws₁, isSpace c = true) (h₂ : ∀ c ∈ ws₂, isSpace c = true)
    (hhead : ∀ c ∈ v.head?, isSpace c = false) (hv : v ≠ [])
    (hline : ∀ c ∈ v, isLineTerminator c = false)
    (hafter : ∀ c ∈ after.head?, isLineTerminator c = true) :
    matchVersionAt (versionWord ++ (ws₁ ++ ':' :: (ws₂ ++ (v ++ after)))) = some v := by
  unfold matchVersionAt
  rw [dropWord_append]
  simp only
  rw [dropWhile_all isSpace ws₁ _ h₁]
  have hcolon : (':' :: (ws₂ ++ (v ++ after))).dropWhile isSpace
      = ':' :: (ws₂ ++ (v ++ after)) := by
    rw [List.dropWhile_cons]
    have : isSpace ':' = false := by decide
    simp [this]
  rw [hcolon]
  simp only
  rw [dropWhile_all isSpace ws₂ _ h₂]
  have hvhead : (v ++ after).dropWhile isSpace = v ++ after := by
    apply dropWhile_head
    cases v with
    | nil => exact absurd rfl hv
    | cons c v => simpa using hhead
  rw [hvhead, takeWhile_all _ v after (by simpa using hline)]
  rw [takeWhile_head _ after (by simpa using hafter)]
  simp

theorem findVersion_skip (before after : List Char)
    (h : startsWithin versionWord before after = false) :
    findVersion (before ++ after) = findVersion after := by
  induction before with
  | nil => rfl
  | cons c before ih =>
    simp only [startsWithin, Bool.or_eq_false_iff] at h
    have hdrop : dropWord versionWord (c :: (before ++ after)) = none := by
      have h1 := h.1
      rw [List.cons_append] at h1
      cases hd : dropWord versionWord (c :: (before ++ after)) with
      | none => rfl
      | some r => rw [hd] at h1; exact absurd h1 (by simp)
    have hnone : matchVersionAt (c :: (before ++ after)) = none := by
      unfold matchVersionAt
      rw [hdrop]
    rw [List.cons_append, findVersion, hnone]
    exact ih h.2

theorem findVersion_of_match (s v : List Char) (h : matchVersionAt s = some v) :
    findVersion s = some v := by
  cases s with
  | nil => simp [matchVersionAt, dropWord, versionWord] at h
  | cons c cs => simp [findVersion, h]

theorem findVersion_line (output v : List Char) (h : VersionLine output v) :
    findVersion output = some v := by
  obtain ⟨before, ws₁, ws₂, after, rfl, hb, h₁, h₂, hv, hhead, hline, hafter⟩ := h
  rw [findVersion_skip _ _ hb]
  exact findVersion_of_match _ _ (matchVersionAt_line ws₁ ws₂ v after h₁ h₂ hhead hv hline hafter)

theorem stripEpoch_of_epoch (v w : List Char) (h : HasEpoch v w) : stripEpoch v = w := by
  obtain ⟨digits, hne, hd, rfl⟩ := h
  have hcolon : isDigit ':' = false := by decide
  have h1 : (digits ++ ':' :: w).takeWhile isDigit = digits := by
    rw [takeWhile_all _ _ _ hd, List.takeWhile_cons]
    simp [hcolon]
  have h2 : (digits ++ ':' :: w).dropWhile isDigit = ':' :: w := by
    rw [dropWhile_all _ _ _ hd, List.dropWhile_cons]
    simp [hcolon]
  unfold stripEpoch
  rw [h1, h2]
  cases digits with
  | nil => exact absurd rfl hne
  | cons d ds => rfl

theorem stripEpoch_of_none (v : List Char) (h : ¬ ∃ w, HasEpoch v w) : stripEpoch v = v := by
  unfold stripEpoch
  split
  · next d ds rest h1 h2 =>
    exfalso
    apply h
    refine ⟨rest, d :: ds, by simp, ?_, ?_⟩
    · intro c hc
      rw [← h1] at hc
      exact (List.mem_takeWhile_imp hc)
    · rw [← h1, ← h2, List.takeWhile_append_dropWhile]
  · rfl

/-- What `getVersion` returns, from what the search returns. -/
theorem getVersion_of_find (exec : String → Option String) (name output : String)
    (v : List Char) (hexec : exec ("pacman -Qi " ++ name) = some output)
    (hfind : findVersion output.data = some v) (hv : v ≠ []) :
    getVersion exec name = some (String.mk (stripEpoch v)) := by
  unfold getVersion
  simp only [hexec, hfind, Option.map_some']
  have : truthy (some (String.mk v)) = true := by
    simp only [truthy, bne_iff_ne, ne_eq]
    intro h
    have := congrArg String.data h
    exact hv this
  simp [this]

/-! ## Facts about the recorded run -/

/-- What a resolved `bluebird.map` returns: one object per descriptor, in
order, each with the result of its own lookup. -/
theorem reconcile_ok_inv (p a : String → Except JSError (Option String)) :
    ∀ (l : List Descriptor) (result : List Reconciled), reconcile p a l = .ok result →
      result.map Reconciled.toDescriptor = l
        ∧ ∀ r ∈ result, lookupRemote p a r.toDescriptor = .ok r.remoteVersion := by
  intro l
  induction l with
  | nil =>
    intro result h
    simp only [reconcile, Except.ok.injEq] at h
    subst h
    simp
  | cons d l ih =>
    intro result h
    simp only [reconcile] at h
    cases hd : lookupRemote p a d with
    | error e => simp [hd] at h
    | ok rv =>
      cases hl : reconcile p a l with
      | error e => simp [hd, hl] at h
      | ok rest =>
        simp only [hd, hl, Except.ok.injEq] at h
        subst h
        obtain ⟨h1, h2⟩ := ih rest hl
        refine ⟨by simp [h1], ?_⟩
        intro r hr
        rcases List.mem_cons.1 hr with rfl | hr
        · exact hd
        · exact h2 r hr

/-- A row of the report passed the filter, carries the local version of its
name and the result of its own remote lookup. -/
theorem reported_inv (gv : String → Option String) (getPkg : String → AxiosOutcome PkgResult)
    (getAur : String → AxiosOutcome AurResult) (cfg : List (String × List Entry))
    (report : List Reconciled)
    (h : main getPkg getAur (parsedPackageList gv cfg) = .ok report) (r : Reconciled)
    (hr : r ∈ report) :
    needsUpdate r = true ∧ r.version = gv r.name
      ∧ lookupRemote (getRemoteVersion getPkg) (getRemoteAurVersion getAur) r.toDescriptor
          = .ok r.remoteVersion := by
  unfold main at h
  cases hrec : reconcile (getRemoteVersion getPkg) (getRemoteAurVersion getAur)
      (parsedPackageList gv cfg) with
  | error e => simp [hrec] at h
  | ok result =>
    simp only [hrec, Except.ok.injEq] at h
    subst h
    have hmem := List.mem_filter.1 ((jsSort_perm _ _).mem_iff.1 hr)
    obtain ⟨hmap, hlook⟩ := reconcile_ok_inv _ _ _ result hrec
    have hd : r.toDescriptor ∈ parsedPackageList gv cfg := by
      rw [← hmap]
      exact List.mem_map_of_mem _ hmem.1
    obtain ⟨g, es, e, -, -, -, hnorm⟩ := (mem_parsedPackageList gv cfg _).1 hd
    obtain ⟨hn, -, hv⟩ := normalize_name gv g e
    refine ⟨hmem.2, ?_, hlook r hmem.1⟩
    show r.toDescriptor.version = gv r.toDescriptor.name
    rw [hnorm, hv, hn]

/-- A row whose local and remote versions are the same string is not in the
report. -/
theorem not_reported_of_eq (r : Reconciled) (h : r.version = r.remoteVersion) :
    needsUpdate r = false := by
  simp [needsUpdate, h]

/-- The version `getVersion` returns for a Version line whose value is a
version, with or without an epoch before it. -/
theorem getVersion_of_printed (exec : String → Option String) (name output : String)
    (v : List Char) (version : String)
    (hexec : exec ("pacman -Qi " ++ name) = some output) (hline : VersionLine output.data v)
    (hprinted : (v = version.data ∧ ¬ ∃ w, HasEpoch v w) ∨ HasEpoch v version.data) :
    getVersion exec name = some version := by
  have hfind := findVersion_line _ _ hline
  have hv : v ≠ [] := by
    obtain ⟨_, _, _, _, _, _, _, _, hv, _⟩ := hline
    exact hv
  rw [getVersion_of_find exec name output v hexec hfind hv]
  rcases hprinted with ⟨h1, h2⟩ | h
  · rw [stripEpoch_of_none v h2, h1]
  · rw [stripEpoch_of_epoch v _ h]

/-- The Version line of what `samplePacman` prints. -/
theorem samplePacman_line (value : String) (command : String) (h : value.data ≠ [])
    (hhead : ∀ c ∈ value.data.head?, isSpace c = false)
    (hline : ∀ c ∈ value.data, isLineTerminator c = false) :
    ∃ output, samplePacman value command = some output ∧ VersionLine output.data value.data := by
  refine ⟨_, rfl, "Name            : sample\n".data, "         ".data, [' '],
    "\nDescription     : x".data, ?_, ?_, by decide, by decide, h, hhead, hline, by decide⟩
  · simp only [String.data_append]
    rfl
  · rfl

/-- A package of the AUR whose printed version has no epoch and is the
`Version` of the first result is not in the report. -/
theorem aur_not_reported_without_epoch (exec : String → Option String)
    (getPkg : String → AxiosOutcome PkgResult) (getAur : String → AxiosOutcome AurResult)
    (n output : String) (v : List Char) (info : AurResult) (rest : List AurResult)
    (hexec : exec ("pacman -Qi " ++ n) = some output) (hline : VersionLine output.data v)
    (hno : ¬ ∃ w, HasEpoch v w)
    (hreg : getAur (aurUrl n) = .response (.results (info :: rest)))
    (hsame : info.Version.data = v) :
    ∀ cfg report, main getPkg getAur (parsedPackageList (getVersion exec) cfg) = .ok report →
      ∀ r ∈ report, r.name = n → r.aur ≠ some true := by
  intro cfg report hmain r hr hname haur
  obtain ⟨hneeds, hver, hlook⟩ := reported_inv _ _ _ _ _ hmain r hr
  have hlocal : getVersion exec n = some info.Version :=
    getVersion_of_printed exec n output v info.Version hexec hline (Or.inl ⟨hsame.symm, hno⟩)
  have hremote : r.remoteVersion = some info.Version := by
    have h1 : lookupRemote (getRemoteVersion getPkg) (getRemoteAurVersion getAur) r.toDescriptor
        = .ok (some info.Version) := by
      unfold lookupRemote
      rw [if_pos haur, hname]
      unfold getRemoteAurVersion
      simp [hreg, firstResult]
    rw [h1] at hlook
    injection hlook with h2
    exact h2.symm
  have := not_reported_of_eq r (by rw [hver, hname, hlocal, hremote])
  rw [this] at hneeds
  exact Bool.false_ne_true hneeds

/-! ## The claims -/

/-- C1, as stated, fails: the AUR answers with an empty `Version`, the
reconciled descriptor has a remote version that is present and differs from
the installed one, and the report is empty. -/
theorem report_drops_empty_remote :
    reconcile (getRemoteVersion samplePkgRegistry)
        (getRemoteAurVersion fun _ => .response (.results [{ Version := "" }]))
        [emptyRemote.toDescriptor] = .ok [emptyRemote]
      ∧ emptyRemote.remoteVersion.isSome = true
      ∧ emptyRemote.remoteVersion ≠ emptyRemote.version
      ∧ pendingUpdates [emptyRemote] = [] := by
  refine ⟨rfl, rfl, by decide, by decide⟩

/-- C1, amended: a descriptor occurs in the report as often as in the
reconciled list when its remote version is present, is not the empty string
and differs from its installed version, and does not occur otherwise; a
descriptor whose remote version is absent is never in the report, and the
report is a permutation of the filtered list. -/
theorem pendingUpdates_content (result : List Reconciled) :
    (∀ d, (pendingUpdates result).count d
        = if d.remoteVersion.isSome = true ∧ d.remoteVersion ≠ some ""
            ∧ d.remoteVersion ≠ d.version
          then result.count d else 0)
      ∧ (∀ d ∈ pendingUpdates result, d.remoteVersion ≠ none)
      ∧ (pendingUpdates result).Perm (result.filter needsUpdate) := by
  have hperm : (pendingUpdates result).Perm (result.filter needsUpdate) := jsSort_perm _ _
  refine ⟨?_, ?_, hperm⟩
  · intro d
    rw [hperm.count_eq]
    by_cases h : needsUpdate d = true
    · rw [if_pos ((needsUpdate_iff d).1 h), List.count_filter h]
    · rw [if_neg (fun h' => h ((needsUpdate_iff d).2 h'))]
      exact List.count_eq_zero.2 fun hm => h (List.mem_filter.1 hm).2
  · intro d hd hnone
    have := (List.mem_filter.1 (hperm.mem_iff.1 hd)).2
    rw [needsUpdate_iff, hnone] at this
    simp at this

/-- C2 fails on the code: the configuration `mixedConfig`, with both
packages installed and outdated, gives the report `b`, `a`, which is not
in the order of the composite key; the same two descriptors given in the
other order come back in that other order, so that no order of the keys in
which only equal names tie makes both reports sorted. -/
theorem report_unsorted_when_flag_omitted :
    main samplePkgRegistry sampleAur (parsedPackageList (fun _ => some "1.0-1") mixedConfig)
        = .ok [omittedFlag, explicitFlag]
      ∧ ¬ specKeyLe omittedFlag explicitFlag
      ∧ pendingUpdates [omittedFlag, explicitFlag] = [omittedFlag, explicitFlag]
      ∧ pendingUpdates [explicitFlag, omittedFlag] = [explicitFlag, omittedFlag]
      ∧ ∀ le : Reconciled → Reconciled → Prop,
          (∀ d d', le d d' → le d' d → d.name = d'.name) →
          ¬ ((pendingUpdates [omittedFlag, explicitFlag]).Chain' le
            ∧ (pendingUpdates [explicitFlag, omittedFlag]).Chain' le) := by
  have h1 : pendingUpdates [omittedFlag, explicitFlag] = [omittedFlag, explicitFlag] := by
    decide
  have h2 : pendingUpdates [explicitFlag, omittedFlag] = [explicitFlag, omittedFlag] := by
    decide
  refine ⟨?_, by decide, h1, h2, ?_⟩
  · rw [mixedConfig, parsedPackageList_cons, parsedPackageList_nil]
    rfl
  · intro le hle
    rw [h1, h2]
    rintro ⟨c1, c2⟩
    simp only [List.chain'_cons, List.chain'_singleton, and_true] at c1 c2
    exact absurd (hle _ _ c1 c2) (by decide)

/-- C3, as stated, fails: the local lookup returns a present version, the
empty string, for `pkgA`, and the list has no descriptor for `pkgA`. -/
theorem parsed_drops_empty_version :
    ((fun _ : String => some "") "pkgA").isSome = true
      ∧ ¬ ∃ d ∈ parsedPackageList (fun _ => some "") [("base", [Entry.bare "pkgA"])],
          d.name = "pkgA" ∧ d.group = "base" := by
  refine ⟨rfl, ?_⟩
  rw [parsedPackageList_cons, parsedPackageList_nil]
  simp [normalize, truthy]

/-- C3, amended: the list holds the descriptor of an entry `e` of group `g`
(its name, flag, group and local version) if and only if the local lookup
for the name of `e` returns a version that is not the empty string; every
descriptor of the list comes from an entry of the configuration, carries the
version the lookup returns for its name, and that version is a non-empty
string. -/
theorem parsedPackageList_installed (gv : String → Option String)
    (cfg : List (String × List Entry)) :
    (∀ g es e, (g, es) ∈ cfg → e ∈ es →
        (normalize gv g e ∈ parsedPackageList gv cfg ↔ ∃ v, gv e.name = some v ∧ v ≠ ""))
      ∧ (∀ g es e, (g, es) ∈ cfg → e ∈ es →
        ((∃ d ∈ parsedPackageList gv cfg, d.name = e.name ∧ d.group = g)
          ↔ ∃ v, gv e.name = some v ∧ v ≠ ""))
      ∧ ∀ d ∈ parsedPackageList gv cfg,
          (∃ g es e, (g, es) ∈ cfg ∧ e ∈ es ∧ d = normalize gv g e)
            ∧ d.version = gv d.name ∧ ∃ v, d.version = some v ∧ v ≠ "" := by
  refine ⟨?_, ?_, ?_⟩
  · intro g es e hg he
    rw [mem_parsedPackageList, ← truthy_iff]
    constructor
    · rintro ⟨g', es', e', -, -, ht, hd⟩
      have h1 := (normalize_name gv g e).2.2
      have h2 := (normalize_name gv g' e').2.2
      rw [hd, h2] at h1
      rw [← h1]; exact ht
    · intro ht
      exact ⟨g, es, e, hg, he, ht, rfl⟩
  · intro g es e hg he
    rw [← truthy_iff]
    constructor
    · rintro ⟨d, hd, hn, -⟩
      rw [mem_parsedPackageList] at hd
      obtain ⟨g', es', e', -, -, ht, rfl⟩ := hd
      rw [(normalize_name gv g' e').1] at hn
      rw [← hn]; exact ht
    · intro ht
      refine ⟨normalize gv g e, ?_, (normalize_name gv g e).1, (normalize_name gv g e).2.1⟩
      rw [mem_parsedPackageList]
      exact ⟨g, es, e, hg, he, ht, rfl⟩
  · intro d hd
    rw [mem_parsedPackageList] at hd
    obtain ⟨g, es, e, hg, he, ht, rfl⟩ := hd
    obtain ⟨hn, -, hv⟩ := normalize_name gv g e
    refine ⟨⟨g, es, e, hg, he, rfl⟩, by rw [hv, hn], ?_⟩
    rw [hv, ← truthy_iff]; exact ht

/-- C5: with resolvers that return an optional version, the reconciliation
returns a list of the same length whose element at each index is the input
descriptor at that index, with `remoteVersion` set to the result of the AUR
resolver for its name when its flag is `true` and of the other resolver
otherwise. -/
theorem reconcile_positional (primary secondary : String → Option String)
    (l : List Descriptor) :
    ∃ result, reconcile (fun n => .ok (primary n)) (fun n => .ok (secondary n)) l = .ok result
      ∧ result.length = l.length
      ∧ result.map Reconciled.toDescriptor = l
      ∧ ∀ i (hi : i < l.length), result[i]? = some
          { toDescriptor := l[i],
            remoteVersion := if l[i].aur = some true then secondary l[i].name
              else primary l[i].name } := by
  refine ⟨_, reconcile_of_ok _ _
    (fun d => if d.aur = some true then secondary d.name else primary d.name) l ?_, ?_, ?_, ?_⟩
  · intro d _
    unfold lookupRemote
    split <;> simp_all
  · simp
  · simp [List.map_map, Function.comp_def]
  · intro i hi
    simp [List.getElem?_map, List.getElem?_eq_getElem hi]

/-- C6 fails on the code: when the request succeeds with a truthy body that
has no `results` property, both resolvers raise a `TypeError`, for every
package name, and `main` rejects with it. -/
theorem resolvers_raise_without_results (name : String) :
    getRemoteVersion (fun _ => .response .noResults) name = .error .typeError
      ∧ getRemoteAurVersion (fun _ => .response .noResults) name = .error .typeError
      ∧ main (fun _ => .response .noResults) sampleAur [sampleDescriptor name false]
          = .error .typeError := by
  refine ⟨rfl, rfl, rfl⟩

/-- C7: when the request for one package ends in a network error and no
lookup of another package raises, `main` resolves, its report holds no
descriptor of that package, and it is the report of the list without that
package; the other descriptors are reconciled to the same objects with and
without that package in the list. -/
theorem main_isolates_network_error (getPkg : String → AxiosOutcome PkgResult)
    (getAur : String → AxiosOutcome AurResult) (l₁ l₂ : List Descriptor) (p : Descriptor)
    (hp : (p.aur = some true ∧ getAur (aurUrl p.name) = .networkError)
      ∨ (p.aur ≠ some true ∧ getPkg (pkgUrl p.name) = .networkError))
    (hothers : ∀ d ∈ l₁ ++ l₂, ∃ v,
      lookupRemote (getRemoteVersion getPkg) (getRemoteAurVersion getAur) d = .ok v) :
    (∃ report, main getPkg getAur (l₁ ++ p :: l₂) = .ok report
        ∧ (∀ r ∈ report, r.toDescriptor ≠ p)
        ∧ main getPkg getAur (l₁ ++ l₂) = .ok report)
      ∧ ∃ r₁ r₂, r₁.map Reconciled.toDescriptor = l₁ ∧ r₂.map Reconciled.toDescriptor = l₂
        ∧ reconcile (getRemoteVersion getPkg) (getRemoteAurVersion getAur) (l₁ ++ p :: l₂)
            = .ok (r₁ ++ { toDescriptor := p, remoteVersion := none } :: r₂)
        ∧ reconcile (getRemoteVersion getPkg) (getRemoteAurVersion getAur) (l₁ ++ l₂)
            = .ok (r₁ ++ r₂) := by
  have hpnone : lookupRemote (getRemoteVersion getPkg) (getRemoteAurVersion getAur) p
      = .ok none := by
    unfold lookupRemote
    rcases hp with ⟨h1, h2⟩ | ⟨h1, h2⟩
    · simp [h1, getRemoteAurVersion, h2]
    · simp [h1, getRemoteVersion, h2]
  let f : Descriptor → Option String := fun d =>
    match lookupRemote (getRemoteVersion getPkg) (getRemoteAurVersion getAur) d with
    | .ok v => v
    | .error _ => none
  have hf : ∀ d, (∃ v, lookupRemote (getRemoteVersion getPkg) (getRemoteAurVersion getAur) d
      = .ok v) → lookupRemote (getRemoteVersion getPkg) (getRemoteAurVersion getAur) d
      = .ok (f d) := by
    rintro d ⟨v, hv⟩
    simp only [f, hv]
  have hfp : f p = none := by simp only [f, hpnone]
  have hall : ∀ d ∈ l₁ ++ p :: l₂,
      lookupRemote (getRemoteVersion getPkg) (getRemoteAurVersion getAur) d = .ok (f d) := by
    intro d hd
    rw [List.mem_append, List.mem_cons] at hd
    rcases hd with hd | rfl | hd
    · exact hf d (hothers d (List.mem_append_left _ hd))
    · exact hf d ⟨none, hpnone⟩
    · exact hf d (hothers d (List.mem_append_right _ hd))
  have hdrop : needsUpdate { toDescriptor := p, remoteVersion := f p } = false := by
    simp [needsUpdate, hfp, truthy]
  have hfilter : ((l₁ ++ p :: l₂).map fun d =>
        ({ toDescriptor := d, remoteVersion := f d } : Reconciled)).filter needsUpdate
      = ((l₁ ++ l₂).map fun d =>
        ({ toDescriptor := d, remoteVersion := f d } : Reconciled)).filter needsUpdate := by
    simp [List.filter_cons, hdrop]
  refine ⟨⟨pendingUpdates ((l₁ ++ l₂).map fun d => { toDescriptor := d, remoteVersion := f d }),
    ?_, ?_, ?_⟩, l₁.map (fun d => { toDescriptor := d, remoteVersion := f d }),
    l₂.map (fun d => { toDescriptor := d, remoteVersion := f d }), ?_, ?_, ?_, ?_⟩
  · unfold main pendingUpdates
    rw [reconcile_of_ok _ _ f _ hall]
    simp only []
    rw [hfilter]
  · intro r hr hrp
    have hmem := (List.mem_filter.1 ((jsSort_perm _ _).mem_iff.1 hr))
    obtain ⟨d, -, rfl⟩ := List.mem_map.1 hmem.1
    have hdp : d = p := hrp
    rw [hdp, hdrop] at hmem
    exact Bool.false_ne_true hmem.2
  · unfold main
    rw [reconcile_of_ok _ _ f _ fun d hd => hf d (hothers d hd)]
  · simp [List.map_map, Function.comp_def]
  · simp [List.map_map, Function.comp_def]
  · rw [reconcile_of_ok _ _ f _ hall, List.map_append, List.map_cons, hfp]
  · rw [reconcile_of_ok _ _ f _ fun d hd => hf d (hothers d hd), List.map_append]

/-- C7 at a sample run: `pkgD` cannot be reached, `pkgA` and `pkgB` are
answered, and the report is the one of `pkgA` and `pkgB` alone. -/
theorem main_isolates_network_error_witness :
    ((sampleDescriptor "pkgD" false).aur ≠ some true
        ∧ samplePkgRegistry (pkgUrl (sampleDescriptor "pkgD" false).name) = .networkError)
      ∧ ∃ report, main samplePkgRegistry sampleAur
            ([sampleDescriptor "pkgA" false]
              ++ sampleDescriptor "pkgD" false :: [sampleDescriptor "pkgB" true]) = .ok report
          ∧ (∀ r ∈ report, r.toDescriptor ≠ sampleDescriptor "pkgD" false)
          ∧ main samplePkgRegistry sampleAur
            ([sampleDescriptor "pkgA" false] ++ [sampleDescriptor "pkgB" true]) = .ok report :=
  ⟨⟨by decide, rfl⟩,
    (main_isolates_network_error samplePkgRegistry sampleAur [sampleDescriptor "pkgA" false]
      [sampleDescriptor "pkgB" true] (sampleDescriptor "pkgD" false)
      (Or.inr ⟨by decide, rfl⟩)
      (by
        intro d hd
        simp only [List.singleton_append, List.mem_cons, List.mem_singleton,
          List.not_mem_nil, or_false] at hd
        rcases hd with rfl | rfl
        · exact ⟨_, rfl⟩
        · exact ⟨_, rfl⟩)).1⟩

/-- C8: when the request succeeds with a `results` list, `getRemoteVersion`
returns absent for an empty list and otherwise `pkgver`, a hyphen and
`pkgrel` of the first result; `getRemoteAurVersion` returns absent for an
empty list and otherwise the `Version` of the first result; the results
after the first do not matter. -/
theorem resolvers_use_first_result (getPkg : String → AxiosOutcome PkgResult)
    (getAur : String → AxiosOutcome AurResult) (name : String)
    (rs : List PkgResult) (rs' : List AurResult)
    (hPkg : getPkg (pkgUrl name) = .response (.results rs))
    (hAur : getAur (aurUrl name) = .response (.results rs')) :
    getRemoteVersion getPkg name
        = .ok (rs.head?.map fun info => info.pkgver ++ "-" ++ info.pkgrel)
      ∧ getRemoteAurVersion getAur name = .ok (rs'.head?.map fun info => info.Version)
      ∧ (rs = [] → getRemoteVersion getPkg name = .ok none)
      ∧ (rs' = [] → getRemoteAurVersion getAur name = .ok none)
      ∧ (∀ info rest, rs = info :: rest →
          getRemoteVersion getPkg name = .ok (some (info.pkgver ++ "-" ++ info.pkgrel)))
      ∧ (∀ info rest, rs' = info :: rest →
          getRemoteAurVersion getAur name = .ok (some info.Version)) := by
  have h1 : getRemoteVersion getPkg name
      = .ok (rs.head?.map fun info => info.pkgver ++ "-" ++ info.pkgrel) := by
    unfold getRemoteVersion
    simp only [hPkg, firstResult]
    cases rs <;> rfl
  have h2 : getRemoteAurVersion getAur name = .ok (rs'.head?.map fun info => info.Version) := by
    unfold getRemoteAurVersion
    simp only [hAur, firstResult]
    cases rs' <;> rfl
  refine ⟨h1, h2, ?_, ?_, ?_, ?_⟩
  · rintro rfl; exact h1
  · rintro rfl; exact h2
  · rintro info rest rfl; exact h1
  · rintro info rest rfl; exact h2

/-- C8 at a sample answer: the AUR lists `2.0-1` and then `9.9-9`, the
package registry lists `1.1`, release `1`. -/
theorem resolvers_use_first_result_witness :
    getRemoteVersion samplePkgRegistry "pkgA" = .ok (some "1.1-1")
      ∧ getRemoteAurVersion sampleAur "pkgA" = .ok (some "2.0-1") :=
  have h := resolvers_use_first_result samplePkgRegistry sampleAur "pkgA"
    [{ pkgver := "1.1", pkgrel := "1" }] [{ Version := "2.0-1" }, { Version := "9.9-9" }]
    rfl rfl
  ⟨h.1, h.2.1⟩

/-- C9 fails on the code: a descriptor built from an object without `aur`
and one built from a string of the same group compare as greater in both
directions, so the comparison is not antisymmetric and the two do not tie on
the flag. -/
theorem sort_by_not_antisymmetric :
    parsedPackageList (fun _ => some "1.0-1") mixedConfig
        = [omittedFlag.toDescriptor, explicitFlag.toDescriptor]
      ∧ sort_by [.group, .aur, .name] omittedFlag explicitFlag = 1
      ∧ sort_by [.group, .aur, .name] explicitFlag omittedFlag = 1
      ∧ Field.cmp .aur omittedFlag explicitFlag = 1
      ∧ Field.cmp .aur explicitFlag omittedFlag = 1 := by
  refine ⟨?_, by decide, by decide, by decide, by decide⟩
  rw [mixedConfig, parsedPackageList_cons, parsedPackageList_nil]
  rfl

/-- C11: the bare string `n` and the object `{ name: n, aur: false }` of the
same group are normalized to the same descriptor, so the resolver call, the
decision of the filter and every comparison of the sort are the same, and
so are the normalized list and the run of a configuration in which one
stands for the other. -/
theorem normalize_bare_eq_obj (gv : String → Option String) (g n : String) :
    normalize gv g (.bare n) = normalize gv g (.obj n (some false))
      ∧ normalize gv g (.bare n)
          = { name := n, aur := some false, group := g, version := gv n }
      ∧ (∀ rv, remoteCall (normalize gv g (.bare n))
            = remoteCall (normalize gv g (.obj n (some false)))
          ∧ needsUpdate ⟨normalize gv g (.bare n), rv⟩
            = needsUpdate ⟨normalize gv g (.obj n (some false)), rv⟩
          ∧ ∀ other, sort_by [.group, .aur, .name] ⟨normalize gv g (.bare n), rv⟩ other
              = sort_by [.group, .aur, .name] ⟨normalize gv g (.obj n (some false)), rv⟩ other)
      ∧ ∀ c₁ c₂ es₁ es₂ getPkg getAur,
          parsedPackageList gv (c₁ ++ (g, es₁ ++ .bare n :: es₂) :: c₂)
              = parsedPackageList gv (c₁ ++ (g, es₁ ++ .obj n (some false) :: es₂) :: c₂)
            ∧ main getPkg getAur
                (parsedPackageList gv (c₁ ++ (g, es₁ ++ .bare n :: es₂) :: c₂))
              = main getPkg getAur
                (parsedPackageList gv (c₁ ++ (g, es₁ ++ .obj n (some false) :: es₂) :: c₂)) := by
  have h : normalize gv g (.bare n) = normalize gv g (.obj n (some false)) := rfl
  have hl : ∀ c₁ c₂ es₁ es₂,
      parsedPackageList gv (c₁ ++ (g, es₁ ++ .bare n :: es₂) :: c₂)
        = parsedPackageList gv (c₁ ++ (g, es₁ ++ .obj n (some false) :: es₂) :: c₂) := by
    intro c₁ c₂ es₁ es₂
    rw [parsedPackageList_append, parsedPackageList_append, parsedPackageList_cons,
      parsedPackageList_cons]
    simp only [List.map_append, List.map_cons, h]
  refine ⟨h, rfl, fun rv => ⟨rfl, rfl, fun _ => rfl⟩, fun c₁ c₂ es₁ es₂ getPkg getAur =>
    ⟨hl c₁ c₂ es₁ es₂, ?_⟩⟩
  rw [hl]

/-- C15: the function `flatten` returns the leaves of its input from left to
right, as the recursive flattening does; an empty array anywhere in the
input contributes nothing, and the result has as many elements as the input
has leaves. -/
theorem flatten_eq_reference {α : Type} (input : List (Nested α)) :
    flatten input = Nested.leaves.leavesList input
      ∧ (∀ xs ys : List (Nested α),
          flatten (xs ++ Nested.arr [] :: ys) = flatten (xs ++ ys))
      ∧ (∀ xs ys : List (Nested α),
          flatten [Nested.arr (xs ++ Nested.arr [] :: ys)] = flatten [Nested.arr (xs ++ ys)])
      ∧ (∀ xs ys : List (Nested α), flatten (xs ++ ys) = flatten xs ++ flatten ys)
      ∧ (∀ (v : α) (items : List (Nested α)),
          flatten [Nested.leaf v] = [v] ∧ flatten [Nested.arr items] = flatten items)
      ∧ (flatten input).length = Nested.leafCount.leafCountList input := by
  refine ⟨flatten_eq_leaves input, ?_, ?_, ?_, ?_, ?_⟩
  · intro xs ys
    simp [flatten_eq_leaves, leavesList_append, Nested.leaves.leavesList, Nested.leaves]
  · intro xs ys
    simp [flatten_eq_leaves, leavesList_append, Nested.leaves.leavesList, Nested.leaves]
  · intro xs ys
    simp [flatten_eq_leaves, leavesList_append]
  · intro v items
    simp [flatten_eq_leaves, Nested.leaves.leavesList, Nested.leaves]
  · rw [flatten_eq_leaves, leavesList_length]

/-- C16: every iteration of the loop of `flatten` on a stack that is not
empty lowers the number of array and leaf nodes held in the stack, by
exactly one, although the stack itself can grow (an array on top is replaced
by all its items); the loop of the embedding is the iteration of that step,
and after as many iterations as the stack holds nodes the stack is empty and
`res` is what the loop returns. -/
theorem flatten_terminates {α : Type} (stack : List (Nested α)) (res : List α) :
    (stack ≠ [] →
        Nested.nodes.nodesList (flattenStep (stack, res)).1 < Nested.nodes.nodesList stack)
      ∧ (∀ items : List (Nested α), (flattenStep ([Nested.arr items], res)).1 = items)
      ∧ flattenLoop stack res
          = (if stack.isEmpty then res
            else flattenLoop (flattenStep (stack, res)).1 (flattenStep (stack, res)).2)
      ∧ flattenStep^[Nested.nodes.nodesList stack] (stack, res) = ([], flattenLoop stack res)
      ∧ flatten stack
          = (flattenStep^[Nested.nodes.nodesList stack] (stack, [])).2.reverse := by
  refine ⟨fun h => ?_, fun items => ?_, flattenLoop_step stack res,
    flattenStep_iterate _ stack res rfl, ?_⟩
  · have := flattenStep_nodes stack res h
    omega
  · simp [flattenStep]
  · rw [flattenStep_iterate _ stack [] rfl]
    rfl

/-- C17, as stated, fails: `pacman` prints `1:5-1`, which is V-R for the
version `1:5` and the release `1`, the first result of the registry has
that `pkgver` and that `pkgrel`, and the package is in the report, with the
local version `5-1`. -/
theorem epochlike_pkgver_reported :
    (∃ output, samplePacman "1:5-1" ("pacman -Qi " ++ "x") = some output
        ∧ VersionLine output.data ("1:5" ++ "-" ++ "1").data)
      ∧ registryWith "1:5" "1" (pkgUrl "x")
          = .response (.results [{ pkgver := "1:5", pkgrel := "1" }])
      ∧ main (registryWith "1:5" "1") sampleAur
          (parsedPackageList (getVersion (samplePacman "1:5-1")) [("base", [Entry.bare "x"])])
          = .ok [{ name := "x", aur := some false, group := "base", version := some "5-1",
                   remoteVersion := some "1:5-1" }] := by
  refine ⟨samplePacman_line "1:5-1" _ (by decide) (by decide) (by decide), rfl, ?_⟩
  rw [parsedPackageList_cons, parsedPackageList_nil]
  rfl

/-- C17, amended: when the Version line that `pacman` prints for a package
carries V-R after an epoch, or carries V-R with no epoch and V-R does not
itself start with digits and a colon, and the first result of the registry
has `pkgver` V and `pkgrel` R, then the local and the remote version are
both V-R, every reconciled descriptor of the package that is resolved by the
package registry has equal `version` and `remoteVersion`, and no such
descriptor is in the report. -/
theorem primary_up_to_date_not_reported (exec : String → Option String)
    (getPkg : String → AxiosOutcome PkgResult) (getAur : String → AxiosOutcome AurResult)
    (n output : String) (v : List Char) (V R : String) (info : PkgResult)
    (rest : List PkgResult)
    (hexec : exec ("pacman -Qi " ++ n) = some output) (hline : VersionLine output.data v)
    (hprinted : (v = (V ++ "-" ++ R).data ∧ ¬ ∃ w, HasEpoch v w)
      ∨ HasEpoch v (V ++ "-" ++ R).data)
    (hreg : getPkg (pkgUrl n) = .response (.results (info :: rest)))
    (hver : info.pkgver = V) (hrel : info.pkgrel = R) :
    getVersion exec n = some (V ++ "-" ++ R)
      ∧ getRemoteVersion getPkg n = .ok (some (V ++ "-" ++ R))
      ∧ (∀ cfg result,
          reconcile (getRemoteVersion getPkg) (getRemoteAurVersion getAur)
              (parsedPackageList (getVersion exec) cfg) = .ok result →
          ∀ r ∈ result, r.name = n → r.aur ≠ some true → r.version = r.remoteVersion)
      ∧ ∀ cfg report,
          main getPkg getAur (parsedPackageList (getVersion exec) cfg) = .ok report →
          ∀ r ∈ report, r.name = n → r.aur = some true := by
  have hlocal : getVersion exec n = some (V ++ "-" ++ R) :=
    getVersion_of_printed exec n output v _ hexec hline hprinted
  have hremote : getRemoteVersion getPkg n = .ok (some (V ++ "-" ++ R)) := by
    unfold getRemoteVersion
    simp [hreg, firstResult, hver, hrel]
  have hrow : ∀ (r : Reconciled), r.version = getVersion exec r.name →
      lookupRemote (getRemoteVersion getPkg) (getRemoteAurVersion getAur) r.toDescriptor
        = .ok r.remoteVersion →
      r.name = n → r.aur ≠ some true → r.version = r.remoteVersion := by
    intro r hv hlook hname haur
    unfold lookupRemote at hlook
    rw [if_neg haur, hname, hremote] at hlook
    injection hlook with h2
    rw [hv, hname, hlocal, h2]
  refine ⟨hlocal, hremote, ?_, ?_⟩
  · intro cfg result hrec r hr hname haur
    obtain ⟨hmap, hlook⟩ := reconcile_ok_inv _ _ _ result hrec
    have hd : r.toDescriptor ∈ parsedPackageList (getVersion exec) cfg := by
      rw [← hmap]
      exact List.mem_map_of_mem _ hr
    obtain ⟨g, es, e, -, -, -, hnorm⟩ := (mem_parsedPackageList _ cfg _).1 hd
    obtain ⟨hn, -, hv⟩ := normalize_name (getVersion exec) g e
    refine hrow r ?_ (hlook r hr) hname haur
    show r.toDescriptor.version = getVersion exec r.toDescriptor.name
    rw [hnorm, hv, hn]
  · intro cfg report hmain r hr hname
    by_contra haur
    obtain ⟨hneeds, hv, hlook⟩ := reported_inv _ _ _ _ _ hmain r hr
    have := not_reported_of_eq r (hrow r hv hlook hname haur)
    rw [this] at hneeds
    exact Bool.false_ne_true hneeds

/-- C17 at a sample run: `pacman` prints `1:19.03.2-1` for `docker` and the
registry lists `19.03.2`, release `1`. -/
theorem primary_up_to_date_not_reported_witness :
    getVersion (samplePacman "1:19.03.2-1") "docker" = some ("19.03.2" ++ "-" ++ "1")
      ∧ getRemoteVersion (registryWith "19.03.2" "1") "docker"
          = .ok (some ("19.03.2" ++ "-" ++ "1"))
      ∧ ∀ cfg report,
          main (registryWith "19.03.2" "1") sampleAur
              (parsedPackageList (getVersion (samplePacman "1:19.03.2-1")) cfg) = .ok report →
          ∀ r ∈ report, r.name = "docker" → r.aur = some true :=
  have h := primary_up_to_date_not_reported (samplePacman "1:19.03.2-1")
    (registryWith "19.03.2" "1") sampleAur "docker"
    ("Name            : sample\nVersion         : " ++ "1:19.03.2-1" ++ "\nDescription     : x")
    "1:19.03.2-1".data "19.03.2" "1" { pkgver := "19.03.2", pkgrel := "1" } [] rfl
    (by
      obtain ⟨output, h1, h2⟩ := samplePacman_line "1:19.03.2-1" "" (by decide) (by decide)
        (by decide)
      cases h1
      exact h2)
    (Or.inr ⟨['1'], by decide, by decide, rfl⟩) rfl rfl rfl
  ⟨h.1, h.2.1, h.2.2.2⟩

/-- C18 fails on the code: `pacman` prints `2:1.0-1` for a package of the
AUR, the `Version` of the first result of the AUR is the same string
`2:1.0-1`, and the package is in the report, with the local version
`1.0-1`. -/
theorem aur_epoch_reported :
    (∃ output, samplePacman "2:1.0-1" ("pacman -Qi " ++ "y") = some output
        ∧ VersionLine output.data "2:1.0-1".data)
      ∧ getRemoteAurVersion (aurWith "2:1.0-1") "y" = .ok (some "2:1.0-1")
      ∧ getVersion (samplePacman "2:1.0-1") "y" = some "1.0-1"
      ∧ main samplePkgRegistry (aurWith "2:1.0-1")
          (parsedPackageList (getVersion (samplePacman "2:1.0-1"))
            [("aur", [Entry.obj "y" (some true)])])
          = .ok [{ name := "y", aur := some true, group := "aur", version := some "1.0-1",
                   remoteVersion := some "2:1.0-1" }] := by
  refine ⟨samplePacman_line "2:1.0-1" _ (by decide) (by decide) (by decide), rfl, rfl, ?_⟩
  rw [parsedPackageList_cons, parsedPackageList_nil]
  rfl

end ArchUpdate
